import Mathlib

/-!
Shallow embedding of `src/src/rdkafka_doubleroundrobin_assignor.c`, the
double round-robin partition assignor of this repository.

The C entry point `rd_kafka_doubleroundrobin_assignor_assign_cb` works
per topic: it sorts the caller's `members` array with `qsort` by member id,
reads `member_cnt = rd_list_cnt(&eligible_topic->members)`, scans adjacent
pairs `members[i], members[i+1]` with the external capability
`rd_kafka_str_member_is_replicate` (returning 0 = distinct, 1 = same group,
2 = duplicate) to build the boundary array `different_consumers` and the
retained-member array `resorted_member_lists`, and then loops over all
partition indices, advancing a group cursor `next` and per-group member
cursors `next_in_member_group`, appending `(topic, partition)` to the
selected member's `rkgm_assignment`.  The function always returns 0 and
never writes to `errstr`.

The embedding below mirrors that code: the mutable C arrays that are only
ever written by sequential appends (`different_consumers`,
`resorted_member_lists`, the trace of assignments) become Lean lists built
by appends; the cursor state becomes an explicit state structure threaded
through a fold; C `int` values become `Int` (all `%` operands are
non-negative at every use reached by the loop, where C `%` agrees with
`Int.emod`); the final member lookup `members[...]` is modelled with a
validity check since the computed index can be out of bounds (n = 0).
-/

namespace DoubleRR

/-- One iteration record of the distribution loop at line 125-146 of the C
file: the partition index, the value of `next` after its update (the selected
group), the value of `next_in_member_group[next]` after its update, the
computed index `different_consumers[next] + 1 + next_in_member_group[next]`
into `resorted_member_lists`, and the member index read from
`resorted_member_lists` there. -/
structure Pick where
  partition : Nat
  group : Int
  mpos : Int
  retIdx : Int
  member : Int
  deriving DecidableEq, Repr

/-- The two append-only arrays built by the grouping scan:
`dc` models `different_consumers` and `retained` models
`resorted_member_lists` (the retained member indices). -/
structure GroupingState where
  dc : List Int
  retained : List Int
  deriving DecidableEq, Repr

/-- One iteration of the adjacent-pair loop (lines 86-101): `status` is the
value of `rd_kafka_str_member_is_replicate(members[i], members[i+1])`.
Case 0 records the current retained-array position as a group boundary and
retains member `i`; case 1 just retains member `i`; any other case (2,
duplicate) drops member `i` and records nothing. -/
def groupStep (st : GroupingState) (status : Nat) (i : Nat) : GroupingState :=
  if status = 0 then
    { dc := st.dc ++ [(st.retained.length : Int)],
      retained := st.retained ++ [(i : Int)] }
  else if status = 1 then
    { st with retained := st.retained ++ [(i : Int)] }
  else st

/-- The adjacent-pair loop `for (i = 0; i < member_cnt - 1; ++i)`:
walks the member list pairwise, threading the grouping state. -/
def groupLoop (cls : μ → μ → Nat) : List μ → Nat → GroupingState → GroupingState
  | a :: b :: rest, i, st => groupLoop cls (b :: rest) (i + 1) (groupStep st (cls a b) i)
  | _, _, st => st

/-- Lines 78-103: `different_consumers[0] = -1`, the adjacent-pair loop, then
the trailing `different_consumers[recount_member] = resorted_member_lists_pos`
and `resorted_member_lists[resorted_member_lists_pos++] = member_cnt - 1`
(the final member is always retained and closes the last group). -/
def buildGrouping (cls : μ → μ → Nat) (ms : List μ) : GroupingState :=
  let st := groupLoop cls ms 0 { dc := [-1], retained := [] }
  { dc := st.dc ++ [(st.retained.length : Int)],
    retained := st.retained ++ [(ms.length : Int) - 1] }

/-- `recount_member` at the time the distribution loop runs: one less than
the number of recorded boundaries. -/
def numGroups (cls : μ → μ → Nat) (ms : List μ) : Nat :=
  (buildGrouping cls ms).dc.length - 1

/-- Lines 112-116: `sizeof_member_group[g] =
different_consumers[g+1] - different_consumers[g]`. -/
def sizesOf (cls : μ → μ → Nat) (ms : List μ) : List Int :=
  (List.range (numGroups cls ms)).map
    (fun g => (buildGrouping cls ms).dc.getD (g + 1) 0 -
      (buildGrouping cls ms).dc.getD g 0)

/-- Cursor state of the distribution loop: `next` (the group cursor,
initialized to -1), `nim` (the `next_in_member_group` array, memset to -1),
and the trace of assignments made so far. -/
structure DistState where
  next : Int
  nim : List Int
  trace : List Pick
  deriving DecidableEq, Repr

/-- Lines 127-145, one iteration for partition `p`:
`next = (next + 1) % recount_member`,
`next_in_member_group[next] = (next_in_member_group[next] + 1) %
sizeof_member_group[next]`, then the member index is read from
`resorted_member_lists[different_consumers[next] + 1 +
next_in_member_group[next]]` and the pair (topic, p) is appended to that
member's assignment. -/
def distStep (G : Nat) (sizes dc retained : List Int) (st : DistState) (p : Nat) :
    DistState :=
  let nxt : Int := (st.next + 1) % (G : Int)
  let g : Nat := nxt.toNat
  let m : Int := (st.nim.getD g 0 + 1) % sizes.getD g 0
  let ri : Int := dc.getD g 0 + 1 + m
  { next := nxt,
    nim := st.nim.set g m,
    trace := st.trace ++ [{ partition := p, group := nxt, mpos := m, retIdx := ri,
                            member := retained.getD ri.toNat 0 }] }

/-- The full distribution loop over partitions `0 .. P-1`. -/
def runDist (G : Nat) (sizes dc retained : List Int) (P : Nat) : DistState :=
  (List.range P).foldl (distStep G sizes dc retained)
    { next := -1, nim := List.replicate G (-1), trace := [] }

/-- The per-topic pipeline: grouping of the member sequence `ms`
followed by the distribution loop over the topic's partition count `P`
(a C `int`; a non-positive count yields zero iterations). -/
def topicTrace (cls : μ → μ → Nat) (ms : List μ) (P : Int) : List Pick :=
  (runDist (numGroups cls ms) (sizesOf cls ms)
    (buildGrouping cls ms).dc (buildGrouping cls ms).retained P.toNat).trace

/-- A group member: its id string and its output assignment list
(`rkgm_member_id`, `rkgm_assignment`). -/
structure Member where
  id : String
  assignment : List (String × Nat)
  deriving DecidableEq, Repr

/-- One element of `eligible_topics`: topic name, the topic's eligible
member list (the code reads only its length, `rd_list_cnt`), and the
metadata partition count (a C `int`). -/
structure ATopic where
  topic : String
  eligible : List String
  partitionCnt : Int
  deriving DecidableEq, Repr

/-- Result of the entry point: final member array, the returned
`rd_kafka_resp_err_t` and the `errstr` buffer contents. -/
structure AssignResult where
  members : List Member
  rc : Int
  err : String
  deriving DecidableEq, Repr

/-- Lexicographic character-list comparison, modelling `strcmp`-style
ordering of member ids (the comparator used by `rd_kafka_group_member_cmp`,
which lives outside this file). -/
def charsLe : List Char → List Char → Bool
  | [], _ => true
  | _ :: _, [] => false
  | a :: as, b :: bs =>
    if a.toNat < b.toNat then true
    else if b.toNat < a.toNat then false
    else charsLe as bs

/-- `strcmp(a, b) <= 0` on member id strings. -/
def idLe (a b : String) : Bool := charsLe a.data b.data

/-- The `qsort(members, member_cnt, sizeof(*members),
rd_kafka_group_member_cmp)` call: sort the whole member array by member id
(the comparator, defined outside this file, is lexicographic id
comparison). -/
def sortMembers (ms : List Member) : List Member :=
  List.insertionSort (fun a b => idLe a.id b.id = true) ms

/-- The `rd_kafka_topic_partition_list_add(rkgm->rkgm_assignment, ...)` call
for one pick: append `(topic, partition)` to the assignment list of the
member at the computed index.  The C code indexes `members[...]`
unconditionally; an out-of-bounds index (possible only when the eligible
count is 0, giving index -1) is undefined behaviour in C and is modelled
here as not updating any member. -/
def appendPick (topic : String) (ms : List Member) (pk : Pick) : List Member :=
  if pk.member < 0 then ms
  else
    match ms[pk.member.toNat]? with
    | none => ms
    | some m => ms.set pk.member.toNat
        { m with assignment := m.assignment ++ [(topic, pk.partition)] }

/-- One iteration of the topic loop (lines 66-146): re-sort the global
member array, read the eligible count `n = rd_list_cnt(&eligible_topic->members)`,
group and distribute over the ids of the FIRST `n` members of the sorted
global array (the C code indexes `members[i]`, not the eligible list), and
append every pick to the selected member of the sorted global array. -/
def processTopic (cls : String → String → Nat) (t : ATopic) (ms : List Member) :
    List Member :=
  let sorted := sortMembers ms
  let picks := topicTrace cls ((sorted.take t.eligible.length).map Member.id)
    t.partitionCnt
  picks.foldl (appendPick t.topic) sorted

/-- The entry point `rd_kafka_doubleroundrobin_assignor_assign_cb`: iterate
all eligible topics and `return 0;` — the function contains no error branch
and never writes `errstr`. -/
def assignCb (cls : String → String → Nat) (ms : List Member) (ts : List ATopic)
    (errstr : String) : AssignResult :=
  { members := ts.foldl (fun cur t => processTopic cls t cur) ms,
    rc := 0, err := errstr }

/-- Modelled from the spec's words (not from the C source), for the
refinement claim: plain single-level round robin over `n` sorted members
sends partition `p` to the member at sorted position `p % n`. -/
def plainRoundRobin (n : Nat) (P : Nat) : List (Nat × Int) :=
  (List.range P).map (fun p => (p, ((p % n : Nat) : Int)))

/-- Closed form of the group cursor `next` after `k` iterations. -/
def nextAt (G k : Nat) : Int :=
  if k = 0 then -1 else ((k : Int) - 1) % (G : Int)

/-- Closed form of `next_in_member_group[g]` after `k` iterations. -/
def nimAt (G : Nat) (sizes : List Int) (k g : Nat) : Int :=
  if k ≤ g then -1 else (((k - 1 - g) / G : Nat) : Int) % sizes.getD g 0

/-- Closed form of the pick made for partition `k`: group `k % G`,
in-group position `(k / G) % size`, member read from the retained array. -/
def pickAt (G : Nat) (sizes dc retained : List Int) (k : Nat) : Pick :=
  { partition := k,
    group := ((k % G : Nat) : Int),
    mpos := ((k / G : Nat) : Int) % sizes.getD (k % G) 0,
    retIdx := dc.getD (k % G) 0 + 1 + ((k / G : Nat) : Int) % sizes.getD (k % G) 0,
    member := retained.getD
      (dc.getD (k % G) 0 + 1 + ((k / G : Nat) : Int) % sizes.getD (k % G) 0).toNat 0 }

/-! ### Generic list and arithmetic helpers -/

lemma getD_map_range (f : Nat → Int) {G g : Nat} (h : g < G) :
    ((List.range G).map f).getD g 0 = f g := by
  simp [List.getD_eq_getElem?_getD, List.getElem?_map, List.getElem?_range h]

lemma getD_of_lt (l : List Int) {i : Nat} (h : i < l.length) :
    l.getD i 0 = l[i] := by
  simp [List.getD_eq_getElem?_getD, List.getElem?_eq_getElem h]

lemma getD_mem (l : List Int) {i : Nat} (h : i < l.length) : l.getD i 0 ∈ l := by
  rw [getD_of_lt l h]
  exact List.getElem_mem h

lemma emod_add_one_emod (a b : Int) : (a % b + 1) % b = (a + 1) % b := by
  conv_lhs => rw [Int.add_emod]
  conv_rhs => rw [Int.add_emod]
  rw [Int.emod_emod_of_dvd _ dvd_rfl]

lemma mul_sub_one_div {G : Nat} (q : Nat) (hG : 0 < G) (hq : 1 ≤ q) :
    (q * G - 1) / G = q - 1 := by
  obtain ⟨q', rfl⟩ : ∃ q', q = q' + 1 := ⟨q - 1, by omega⟩
  have h2 : (q' + 1) * G = q' * G + G := by rw [Nat.succ_mul]
  have h3 : G * q' = q' * G := Nat.mul_comm G q'
  have h1 : (q' + 1) * G - 1 = G - 1 + G * q' := by omega
  rw [h1, Nat.add_mul_div_left _ _ hG, Nat.div_eq_of_lt (by omega)]
  omega

lemma div_pred_of_not_dvd {G m : Nat} (h1 : 0 < m) (h2 : ¬ G ∣ m) :
    m / G = (m - 1) / G := by
  obtain ⟨m', rfl⟩ : ∃ m', m = m' + 1 := ⟨m - 1, by omega⟩
  rw [Nat.succ_div, if_neg h2]
  simp

/-! ### Invariants of the grouping scan -/

/-- Invariant of the grouping scan: the boundary list starts at -1, is
strictly increasing, every boundary is below the current retained length,
and every retained member index is in `[0, i)`. -/
def GInv (i : Nat) (st : GroupingState) : Prop :=
  st.dc.head? = some (-1) ∧
  List.Chain' (· < ·) st.dc ∧
  (∀ x ∈ st.dc, x < (st.retained.length : Int)) ∧
  (∀ x ∈ st.retained, 0 ≤ x ∧ x < (i : Int))

lemma GInv.mono {i j : Nat} (hij : i ≤ j) {st : GroupingState} (h : GInv i st) :
    GInv j st := by
  obtain ⟨h1, h2, h3, h4⟩ := h
  refine ⟨h1, h2, h3, fun x hx => ?_⟩
  have := h4 x hx
  constructor
  · exact this.1
  · calc x < (i : Int) := this.2
      _ ≤ (j : Int) := by exact_mod_cast hij

lemma groupStep_GInv {i : Nat} {st : GroupingState} (h : GInv i st) (status : Nat) :
    GInv (i + 1) (groupStep st status i) := by
  obtain ⟨h1, h2, h3, h4⟩ := h
  unfold groupStep
  split_ifs with hs0 hs1
  · refine ⟨?_, ?_, ?_, ?_⟩
    · simp only [List.head?_append, h1, Option.or]
    · rw [List.chain'_append]
      refine ⟨h2, List.chain'_singleton _, fun x hx y hy => ?_⟩
      simp only [List.head?_cons, Option.mem_def, Option.some.injEq] at hy
      subst hy
      exact h3 x (List.mem_of_mem_getLast? hx)
    · intro x hx
      simp only [List.length_append, List.length_cons, List.length_nil]
      rcases List.mem_append.mp hx with hx | hx
      · have := h3 x hx
        push_cast
        omega
      · simp only [List.mem_singleton] at hx
        subst hx
        push_cast
        omega
    · intro x hx
      rcases List.mem_append.mp hx with hx | hx
      · have := h4 x hx
        push_cast
        omega
      · simp only [List.mem_singleton] at hx
        subst hx
        push_cast
        omega
  · refine ⟨h1, h2, ?_, ?_⟩
    · intro x hx
      have := h3 x hx
      simp only [List.length_append, List.length_cons, List.length_nil]
      push_cast
      omega
    · intro x hx
      rcases List.mem_append.mp hx with hx | hx
      · have := h4 x hx
        push_cast
        omega
      · simp only [List.mem_singleton] at hx
        subst hx
        push_cast
        omega
  · exact GInv.mono (Nat.le_succ i) ⟨h1, h2, h3, h4⟩

lemma groupLoop_GInv (cls : μ → μ → Nat) :
    ∀ (l : List μ) (i : Nat) (st : GroupingState),
      GInv i st → GInv (i + l.length) (groupLoop cls l i st)
  | [], i, st, h => by simpa [groupLoop] using h
  | [a], i, st, h => by
    simpa [groupLoop] using GInv.mono (by omega) h
  | a :: b :: rest, i, st, h => by
    have ih := groupLoop_GInv cls (b :: rest) (i + 1) (groupStep st (cls a b) i)
      (groupStep_GInv h _)
    simp only [groupLoop, List.length_cons]
    simp only [List.length_cons] at ih
    have harith : i + 1 + (rest.length + 1) = i + (rest.length + 1 + 1) := by omega
    rwa [harith] at ih

lemma buildGrouping_GInv (cls : μ → μ → Nat) (ms : List μ) :
    GInv ms.length (groupLoop cls ms 0 { dc := [-1], retained := [] }) := by
  have hinit : GInv 0 ({ dc := [-1], retained := [] } : GroupingState) := by
    refine ⟨rfl, List.chain'_singleton _, ?_, ?_⟩
    · intro x hx
      simp only [List.mem_singleton] at hx
      subst hx
      simp
    · intro x hx
      simp at hx
  simpa using groupLoop_GInv cls ms 0 _ hinit

lemma buildGrouping_dc_head (cls : μ → μ → Nat) (ms : List μ) :
    (buildGrouping cls ms).dc.head? = some (-1) := by
  have h := (buildGrouping_GInv cls ms).1
  unfold buildGrouping
  simp only [List.head?_append, h, Option.or]

lemma buildGrouping_dc_chain (cls : μ → μ → Nat) (ms : List μ) :
    List.Chain' (· < ·) (buildGrouping cls ms).dc := by
  obtain ⟨h1, h2, h3, h4⟩ := buildGrouping_GInv cls ms
  unfold buildGrouping
  rw [List.chain'_append]
  refine ⟨h2, List.chain'_singleton _, fun x hx y hy => ?_⟩
  simp only [List.head?_cons, Option.mem_def, Option.some.injEq] at hy
  subst hy
  exact h3 x (List.mem_of_mem_getLast? hx)

lemma buildGrouping_dc_getLast (cls : μ → μ → Nat) (ms : List μ) :
    (buildGrouping cls ms).dc.getLast? =
      some (((buildGrouping cls ms).retained.length : Int) - 1) := by
  unfold buildGrouping
  rw [List.getLast?_concat]
  simp only [List.length_append, List.length_cons, List.length_nil]
  push_cast
  ring_nf

lemma buildGrouping_dc_length (cls : μ → μ → Nat) (ms : List μ) :
    2 ≤ (buildGrouping cls ms).dc.length := by
  have h := (buildGrouping_GInv cls ms).1
  unfold buildGrouping
  simp only [List.length_append, List.length_cons, List.length_nil]
  rcases hdc : (groupLoop cls ms 0 { dc := [-1], retained := [] }).dc with _ | ⟨x, xs⟩
  · rw [hdc] at h
    simp at h
  · simp

lemma buildGrouping_retained_length (cls : μ → μ → Nat) (ms : List μ) :
    (buildGrouping cls ms).retained.length =
      (groupLoop cls ms 0 { dc := [-1], retained := [] }).retained.length + 1 := by
  unfold buildGrouping
  simp

lemma buildGrouping_retained_bounds (cls : μ → μ → Nat) (ms : List μ)
    (h : 1 ≤ ms.length) :
    ∀ x ∈ (buildGrouping cls ms).retained, 0 ≤ x ∧ x < (ms.length : Int) := by
  obtain ⟨h1, h2, h3, h4⟩ := buildGrouping_GInv cls ms
  unfold buildGrouping
  intro x hx
  rcases List.mem_append.mp hx with hx | hx
  · exact h4 x hx
  · simp only [List.mem_singleton] at hx
    subst hx
    constructor
    · have : (1 : Int) ≤ (ms.length : Int) := by exact_mod_cast h
      omega
    · omega

/-! ### Derived facts about `numGroups` and `sizesOf` -/

lemma numGroups_pos (cls : μ → μ → Nat) (ms : List μ) : 1 ≤ numGroups cls ms := by
  have := buildGrouping_dc_length cls ms
  unfold numGroups
  omega

lemma dc_length_eq (cls : μ → μ → Nat) (ms : List μ) :
    (buildGrouping cls ms).dc.length = numGroups cls ms + 1 := by
  have := buildGrouping_dc_length cls ms
  unfold numGroups
  omega

lemma dc_getD_zero (cls : μ → μ → Nat) (ms : List μ) :
    (buildGrouping cls ms).dc.getD 0 0 = -1 := by
  have h := buildGrouping_dc_head cls ms
  rcases hdc : (buildGrouping cls ms).dc with _ | ⟨x, xs⟩
  · rw [hdc] at h
    simp at h
  · rw [hdc] at h
    simp only [List.head?_cons, Option.some.injEq] at h
    subst h
    rfl

lemma dc_getD_mono (cls : μ → μ → Nat) (ms : List μ) {i j : Nat} (hij : i < j)
    (hj : j < (buildGrouping cls ms).dc.length) :
    (buildGrouping cls ms).dc.getD i 0 < (buildGrouping cls ms).dc.getD j 0 := by
  have hp : List.Pairwise (· < ·) (buildGrouping cls ms).dc :=
    List.chain'_iff_pairwise.mp (buildGrouping_dc_chain cls ms)
  have hi : i < (buildGrouping cls ms).dc.length := lt_trans hij hj
  rw [getD_of_lt _ hi, getD_of_lt _ hj]
  exact List.pairwise_iff_getElem.mp hp i j hi hj hij

lemma dc_getD_last (cls : μ → μ → Nat) (ms : List μ) :
    (buildGrouping cls ms).dc.getD (numGroups cls ms) 0 =
      ((buildGrouping cls ms).retained.length : Int) - 1 := by
  have h := buildGrouping_dc_getLast cls ms
  have hlen := dc_length_eq cls ms
  have hG : numGroups cls ms < (buildGrouping cls ms).dc.length := by omega
  rw [List.getLast?_eq_getElem?] at h
  rw [getD_of_lt _ hG]
  have : (buildGrouping cls ms).dc.length - 1 = numGroups cls ms := by omega
  rw [this] at h
  rw [List.getElem?_eq_getElem hG] at h
  simpa using h

lemma dc_getD_ge (cls : μ → μ → Nat) (ms : List μ) {g : Nat}
    (hg : g < (buildGrouping cls ms).dc.length) :
    -1 ≤ (buildGrouping cls ms).dc.getD g 0 := by
  rcases Nat.eq_zero_or_pos g with hg0 | hg0
  · subst hg0
    rw [dc_getD_zero]
  · have := dc_getD_mono cls ms hg0 hg
    rw [dc_getD_zero] at this
    omega

lemma sizesOf_length (cls : μ → μ → Nat) (ms : List μ) :
    (sizesOf cls ms).length = numGroups cls ms := by
  unfold sizesOf
  simp

lemma sizesOf_getD (cls : μ → μ → Nat) (ms : List μ) {g : Nat}
    (hg : g < numGroups cls ms) :
    (sizesOf cls ms).getD g 0 =
      (buildGrouping cls ms).dc.getD (g + 1) 0 -
        (buildGrouping cls ms).dc.getD g 0 := by
  unfold sizesOf
  exact getD_map_range _ hg

lemma sizesOf_pos (cls : μ → μ → Nat) (ms : List μ) {g : Nat}
    (hg : g < numGroups cls ms) : 1 ≤ (sizesOf cls ms).getD g 0 := by
  rw [sizesOf_getD cls ms hg]
  have hlen := dc_length_eq cls ms
  have := dc_getD_mono cls ms (show g < g + 1 by omega) (show g + 1 < _ by omega)
  omega

/-! ### Closed form of the distribution loop -/

lemma map_range_const (G : Nat) (c : Int) :
    (List.range G).map (fun _ => c) = List.replicate G c := by
  rw [List.map_const']
  simp

lemma runDist_closed {G : Nat} (hG : 0 < G) (sizes dc retained : List Int) :
    ∀ P : Nat, runDist G sizes dc retained P =
      { next := nextAt G P,
        nim := (List.range G).map (fun g => nimAt G sizes P g),
        trace := (List.range P).map (pickAt G sizes dc retained) }
  | 0 => by
    unfold runDist nextAt
    simp only [List.range_zero, List.foldl_nil, List.map_nil, if_pos rfl]
    congr 1
    rw [show (fun g => nimAt G sizes 0 g) = (fun _ => (-1 : Int)) from ?_,
      map_range_const]
    funext g
    simp [nimAt]
  | P + 1 => by
    have ih := runDist_closed hG sizes dc retained P
    have hstep : runDist G sizes dc retained (P + 1) =
        distStep G sizes dc retained (runDist G sizes dc retained P) P := by
      unfold runDist
      rw [List.range_succ, List.foldl_append, List.foldl_cons, List.foldl_nil]
    rw [hstep, ih]
    have hg_lt : P % G < G := Nat.mod_lt _ hG
    have hA : (nextAt G P + 1) % (G : Int) = ((P % G : Nat) : Int) := by
      rcases Nat.eq_zero_or_pos P with h0 | h0
      · subst h0
        simp [nextAt]
      · obtain ⟨p, rfl⟩ : ∃ p, P = p + 1 := ⟨P - 1, by omega⟩
        unfold nextAt
        rw [if_neg (by omega)]
        have h1 : ((p + 1 : Nat) : Int) - 1 = (p : Int) := by push_cast; ring
        rw [h1, emod_add_one_emod]
        push_cast
        ring_nf
    have hA2 : nextAt G (P + 1) = ((P % G : Nat) : Int) := by
      unfold nextAt
      rw [if_neg (by omega)]
      push_cast
      ring_nf
    have hC : ((List.range G).map (fun g => nimAt G sizes P g)).getD (P % G) 0 =
        nimAt G sizes P (P % G) := getD_map_range _ hg_lt
    have hD : (nimAt G sizes P (P % G) + 1) % sizes.getD (P % G) 0 =
        ((P / G : Nat) : Int) % sizes.getD (P % G) 0 := by
      by_cases hPg : P ≤ P % G
      · have hgP : P % G = P := by
          have := Nat.mod_le P G
          omega
        have hPG : P < G := by omega
        have hdiv : P / G = 0 := Nat.div_eq_of_lt hPG
        rw [hdiv]
        simp [nimAt, hPg]
      · push_neg at hPg
        rw [show nimAt G sizes P (P % G) =
            (((P - 1 - P % G) / G : Nat) : Int) % sizes.getD (P % G) 0 from by
          unfold nimAt
          rw [if_neg (by omega)]]
        rw [emod_add_one_emod]
        congr 1
        have hGP : G ≤ P := by
          by_contra hh
          push_neg at hh
          rw [Nat.mod_eq_of_lt hh] at hPg
          omega
        have hq1 : 1 ≤ P / G := (Nat.one_le_div_iff hG).mpr hGP
        have hdm := Nat.div_add_mod P G
        have hcm : (P / G) * G = G * (P / G) := Nat.mul_comm _ _
        have he : P - 1 - P % G = (P / G) * G - 1 := by omega
        rw [he, mul_sub_one_div (P / G) hG hq1]
        omega
    have hE : ((List.range G).map (fun g => nimAt G sizes P g)).set (P % G)
        (((P / G : Nat) : Int) % sizes.getD (P % G) 0) =
        (List.range G).map (fun g => nimAt G sizes (P + 1) g) := by
      apply List.ext_getElem
      · simp
      · intro j hj1 hj2
        simp only [List.length_set, List.length_map, List.length_range] at hj1
        simp only [List.length_map, List.length_range] at hj2
        rw [List.getElem_set]
        simp only [List.getElem_map, List.getElem_range]
        by_cases hjg : P % G = j
        · rw [if_pos hjg]
          subst hjg
          unfold nimAt
          rw [if_neg (by
            have := Nat.mod_le P G
            omega)]
          congr 2
          have hdm := Nat.div_add_mod P G
          have he : P + 1 - 1 - P % G = G * (P / G) := by omega
          rw [he, Nat.mul_div_cancel_left _ hG]
        · rw [if_neg hjg]
          unfold nimAt
          by_cases h1 : P ≤ j
          · rcases eq_or_lt_of_le h1 with h2 | h2
            · exfalso
              have hPG : P < G := by omega
              exact hjg (by rw [Nat.mod_eq_of_lt hPG]; omega)
            · rw [if_pos h1, if_pos (by omega)]
          · push_neg at h1
            rw [if_neg (by omega), if_neg (by omega)]
            congr 2
            have hnd : ¬ G ∣ (P - j) := by
              intro hdvd
              have hmodeq : j % G = P % G :=
                (Nat.modEq_iff_dvd' (le_of_lt h1)).mpr hdvd
              rw [Nat.mod_eq_of_lt hj1] at hmodeq
              exact hjg hmodeq.symm
            have h2 : P + 1 - 1 - j = P - j := by omega
            have h3 : P - 1 - j = (P - j) - 1 := by omega
            rw [h2, h3, ← div_pred_of_not_dvd (by omega) hnd]
    simp only [distStep]
    rw [hA, Int.toNat_natCast, hC, hD, hE]
    conv_rhs => rw [hA2, List.range_succ, List.map_append]
    simp only [pickAt, List.map_cons, List.map_nil]

/-- The pick made for partition `k` of a topic whose grouped member sequence
is `ms`. -/
def pickOf (cls : μ → μ → Nat) (ms : List μ) (k : Nat) : Pick :=
  pickAt (numGroups cls ms) (sizesOf cls ms) (buildGrouping cls ms).dc
    (buildGrouping cls ms).retained k

lemma topicTrace_closed (cls : μ → μ → Nat) (ms : List μ) (P : Int) :
    topicTrace cls ms P = (List.range P.toNat).map (pickOf cls ms) := by
  unfold topicTrace pickOf
  rw [runDist_closed (numGroups_pos cls ms) _ _ _ _]

lemma pickOf_partition (cls : μ → μ → Nat) (ms : List μ) (k : Nat) :
    (pickOf cls ms k).partition = k := rfl

lemma pickOf_group (cls : μ → μ → Nat) (ms : List μ) (k : Nat) :
    (pickOf cls ms k).group = ((k % numGroups cls ms : Nat) : Int) := rfl

lemma pickOf_mpos (cls : μ → μ → Nat) (ms : List μ) (k : Nat) :
    (pickOf cls ms k).mpos = ((k / numGroups cls ms : Nat) : Int) %
      (sizesOf cls ms).getD (k % numGroups cls ms) 0 := rfl

lemma pickOf_retIdx_eq (cls : μ → μ → Nat) (ms : List μ) (k : Nat) :
    (pickOf cls ms k).retIdx =
      (buildGrouping cls ms).dc.getD (k % numGroups cls ms) 0 + 1 +
        (pickOf cls ms k).mpos := rfl

lemma pickOf_member_eq (cls : μ → μ → Nat) (ms : List μ) (k : Nat) :
    (pickOf cls ms k).member =
      (buildGrouping cls ms).retained.getD (pickOf cls ms k).retIdx.toNat 0 := rfl

lemma pickOf_mpos_bounds (cls : μ → μ → Nat) (ms : List μ) (k : Nat) :
    0 ≤ (pickOf cls ms k).mpos ∧
      (pickOf cls ms k).mpos < (sizesOf cls ms).getD (k % numGroups cls ms) 0 := by
  have hg : k % numGroups cls ms < numGroups cls ms :=
    Nat.mod_lt _ (numGroups_pos cls ms)
  have hS := sizesOf_pos cls ms hg
  rw [pickOf_mpos]
  constructor
  · exact Int.emod_nonneg _ (by omega)
  · exact Int.emod_lt_of_pos _ (by omega)

lemma pickOf_retIdx_bounds (cls : μ → μ → Nat) (ms : List μ) (k : Nat) :
    0 ≤ (pickOf cls ms k).retIdx ∧
      (pickOf cls ms k).retIdx < ((buildGrouping cls ms).retained.length : Int) := by
  have hg : k % numGroups cls ms < numGroups cls ms :=
    Nat.mod_lt _ (numGroups_pos cls ms)
  have hlen := dc_length_eq cls ms
  have hmb := pickOf_mpos_bounds cls ms k
  have hSz := sizesOf_getD cls ms hg
  have hge := dc_getD_ge cls ms
    (show k % numGroups cls ms < (buildGrouping cls ms).dc.length by omega)
  have hlast := dc_getD_last cls ms
  have hmono : (buildGrouping cls ms).dc.getD (k % numGroups cls ms + 1) 0 ≤
      (buildGrouping cls ms).dc.getD (numGroups cls ms) 0 := by
    rcases eq_or_lt_of_le (show k % numGroups cls ms + 1 ≤ numGroups cls ms by omega)
      with he | hlt
    · rw [he]
    · exact le_of_lt (dc_getD_mono cls ms hlt (by omega))
  rw [pickOf_retIdx_eq]
  constructor <;> omega

lemma pickOf_member_mem (cls : μ → μ → Nat) (ms : List μ) (k : Nat) :
    (pickOf cls ms k).member ∈ (buildGrouping cls ms).retained := by
  have hb := pickOf_retIdx_bounds cls ms k
  have hlt : (pickOf cls ms k).retIdx.toNat <
      (buildGrouping cls ms).retained.length := by omega
  rw [pickOf_member_eq]
  exact getD_mem _ hlt

lemma pickOf_member_bounds (cls : μ → μ → Nat) (ms : List μ) (k : Nat)
    (h : 1 ≤ ms.length) :
    0 ≤ (pickOf cls ms k).member ∧ (pickOf cls ms k).member < (ms.length : Int) :=
  buildGrouping_retained_bounds cls ms h _ (pickOf_member_mem cls ms k)

/-! ### Counting residues in a range -/

lemma countP_singleton (p : α → Bool) (a : α) :
    List.countP p [a] = if p a then 1 else 0 := by
  simp [List.countP_cons]

lemma countP_mod_range {G : Nat} (hG : 0 < G) {g : Nat} (hg : g < G) :
    ∀ N : Nat, (List.range N).countP (fun k => decide (k % G = g)) =
      N / G + if g < N % G then 1 else 0
  | 0 => by simp
  | N + 1 => by
    have ih := countP_mod_range hG hg N
    rw [List.range_succ, List.countP_append, ih, countP_singleton]
    have hdm := Nat.div_add_mod N G
    have hmlt : N % G < G := Nat.mod_lt _ hG
    by_cases hc : N % G + 1 = G
    · have hexp : G * (N / G + 1) = G * (N / G) + G := by rw [Nat.mul_succ]
      have hdvd : G ∣ N + 1 := ⟨N / G + 1, by omega⟩
      have hdiv : (N + 1) / G = N / G + 1 := Nat.succ_div_of_dvd hdvd
      have hmod : (N + 1) % G = 0 := by
        rw [show N + 1 = G * (N / G + 1) from by omega, Nat.mul_mod_right]
      rw [hdiv, hmod]
      simp only [decide_eq_true_eq]
      split_ifs <;> omega
    · have hlt : N % G + 1 < G := by omega
      have hexp : N + 1 = (N % G + 1) + G * (N / G) := by omega
      have hmod : (N + 1) % G = N % G + 1 := by
        rw [hexp, Nat.add_mul_mod_self_left, Nat.mod_eq_of_lt hlt]
      have hdiv : (N + 1) / G = N / G := by
        rw [hexp, Nat.add_mul_div_left _ _ hG, Nat.div_eq_of_lt hlt]
        omega
      rw [hmod, hdiv]
      simp only [decide_eq_true_eq]
      split_ifs <;> omega

lemma countP_mod_div_range {G : Nat} (hG : 0 < G) {g : Nat} (hg : g < G)
    (q : Nat → Bool) :
    ∀ N : Nat, (List.range N).countP (fun k => decide (k % G = g) && q (k / G)) =
      (List.range ((List.range N).countP (fun k => decide (k % G = g)))).countP q
  | 0 => by simp
  | N + 1 => by
    have ih := countP_mod_div_range hG hg q N
    have hK : (List.range (N + 1)).countP (fun k => decide (k % G = g)) =
        (List.range N).countP (fun k => decide (k % G = g)) +
          if N % G = g then 1 else 0 := by
      rw [List.range_succ, List.countP_append, countP_singleton]
      simp
    have hL : (List.range (N + 1)).countP
        (fun k => decide (k % G = g) && q (k / G)) =
        (List.range N).countP (fun k => decide (k % G = g) && q (k / G)) +
          if N % G = g then (if q (N / G) then 1 else 0) else 0 := by
      rw [List.range_succ, List.countP_append, countP_singleton]
      by_cases hNg : N % G = g <;> simp [hNg]
    rw [hL, hK, ih]
    by_cases hNg : N % G = g
    · have hKN : (List.range N).countP (fun k => decide (k % G = g)) = N / G := by
        rw [countP_mod_range hG hg N, hNg]
        simp
      simp only [if_pos hNg]
      rw [hKN, List.range_succ, List.countP_append, countP_singleton]
    · simp only [if_neg hNg]
      simp

/-! ### Counting picks in the trace -/

lemma trace_countP_eq (cls : μ → μ → Nat) (ms : List μ) (P : Int) (p : Pick → Bool) :
    (topicTrace cls ms P).countP p =
      (List.range P.toNat).countP (fun k => p (pickOf cls ms k)) := by
  rw [topicTrace_closed, List.countP_map]
  rfl

lemma trace_group_count (cls : μ → μ → Nat) (ms : List μ) (P : Int) {g : Nat}
    (hg : g < numGroups cls ms) :
    (topicTrace cls ms P).countP (fun pk => decide (pk.group = (g : Int))) =
      P.toNat / numGroups cls ms +
        if g < P.toNat % numGroups cls ms then 1 else 0 := by
  rw [trace_countP_eq]
  have h1 : (List.range P.toNat).countP
      (fun k => decide ((pickOf cls ms k).group = (g : Int))) =
      (List.range P.toNat).countP
        (fun k => decide (k % numGroups cls ms = g)) := by
    apply List.countP_congr
    intro k _
    rw [pickOf_group]
    simp only [decide_eq_true_eq, Nat.cast_inj]
  rw [h1, countP_mod_range (numGroups_pos cls ms) hg]

lemma trace_group_mpos_count (cls : μ → μ → Nat) (ms : List μ) (P : Int)
    {g j : Nat} (hg : g < numGroups cls ms)
    (hj : (j : Int) < (sizesOf cls ms).getD g 0) :
    (topicTrace cls ms P).countP
        (fun pk => decide (pk.group = (g : Int)) && decide (pk.mpos = (j : Int))) =
      (P.toNat / numGroups cls ms +
          if g < P.toNat % numGroups cls ms then 1 else 0) /
        ((sizesOf cls ms).getD g 0).toNat +
      if j < (P.toNat / numGroups cls ms +
            if g < P.toNat % numGroups cls ms then 1 else 0) %
          ((sizesOf cls ms).getD g 0).toNat then 1 else 0 := by
  have hSpos := sizesOf_pos cls ms hg
  set q := ((sizesOf cls ms).getD g 0).toNat with hq
  have hcast : (sizesOf cls ms).getD g 0 = (q : Int) := by
    rw [hq, Int.toNat_of_nonneg (by omega)]
  have hS1 : 1 ≤ q := by omega
  have hjS : j < q := by
    have : (j : Int) < (q : Int) := by rw [← hcast]; exact hj
    exact_mod_cast this
  rw [trace_countP_eq]
  have h1 : (List.range P.toNat).countP
      (fun k => decide ((pickOf cls ms k).group = (g : Int)) &&
        decide ((pickOf cls ms k).mpos = (j : Int))) =
      (List.range P.toNat).countP
        (fun k => decide (k % numGroups cls ms = g) &&
          decide ((k / numGroups cls ms) % q = j)) := by
    apply List.countP_congr
    intro k _
    rw [pickOf_group, pickOf_mpos]
    by_cases hkg : k % numGroups cls ms = g
    · rw [hkg, hcast, ← Int.ofNat_emod]
      simp only [decide_eq_true_eq, Nat.cast_inj]
    · simp only [Bool.and_eq_true, decide_eq_true_eq, Nat.cast_inj]
      constructor
      · rintro ⟨hc, -⟩
        exact absurd hc hkg
      · rintro ⟨hc, -⟩
        exact absurd hc hkg
  rw [h1]
  calc (List.range P.toNat).countP
        (fun k => decide (k % numGroups cls ms = g) &&
          decide ((k / numGroups cls ms) % q = j))
      = (List.range ((List.range P.toNat).countP
            (fun k => decide (k % numGroups cls ms = g)))).countP
          (fun i => decide (i % q = j)) :=
        countP_mod_div_range (numGroups_pos cls ms) hg
          (fun i => decide (i % q = j)) P.toNat
    _ = (List.range (P.toNat / numGroups cls ms +
            if g < P.toNat % numGroups cls ms then 1 else 0)).countP
          (fun i => decide (i % q = j)) := by
        rw [countP_mod_range (numGroups_pos cls ms) hg]
    _ = (P.toNat / numGroups cls ms +
            if g < P.toNat % numGroups cls ms then 1 else 0) / q +
          if j < (P.toNat / numGroups cls ms +
              if g < P.toNat % numGroups cls ms then 1 else 0) % q then 1 else 0 :=
        countP_mod_range hS1 hjS _

/-! ### Grouping when every adjacent pair is classified distinct -/

lemma getD_replicate {n i : Nat} (c : Int) (h : i < n) :
    (List.replicate n c).getD i 0 = c := by
  rw [List.getD_eq_getElem?_getD, List.getElem?_replicate]
  simp [h]

lemma singleton_append_map_range (c : Nat) (n : Nat) :
    ((c : Int) :: (List.range n).map (fun t => ((c + 1 + t : Nat) : Int))) =
      (List.range (n + 1)).map (fun t => ((c + t : Nat) : Int)) := by
  apply List.ext_getElem
  · simp
  · intro j hj1 hj2
    simp only [List.length_cons, List.length_map, List.length_range] at hj1 hj2
    cases j with
    | zero => simp
    | succ j' =>
      simp only [List.getElem_cons_succ, List.getElem_map, List.getElem_range]
      congr 1
      omega

lemma groupLoop_all_distinct (cls : μ → μ → Nat) :
    ∀ (l : List μ) (i : Nat) (st : GroupingState),
      List.Chain' (fun a b => cls a b = 0) l →
      groupLoop cls l i st =
        { dc := st.dc ++ (List.range (l.length - 1)).map
            (fun t => ((st.retained.length + t : Nat) : Int)),
          retained := st.retained ++ (List.range (l.length - 1)).map
            (fun t => ((i + t : Nat) : Int)) }
  | [], _, st, _ => by simp [groupLoop]
  | [a], _, st, _ => by simp [groupLoop]
  | a :: b :: rest, i, st, h => by
    rw [List.chain'_cons] at h
    obtain ⟨hab, htail⟩ := h
    have hstep : groupStep st (cls a b) i =
        { dc := st.dc ++ [(st.retained.length : Int)],
          retained := st.retained ++ [(i : Int)] } := by
      unfold groupStep
      rw [if_pos hab]
    have ih := groupLoop_all_distinct cls (b :: rest) (i + 1)
      (groupStep st (cls a b) i) htail
    rw [hstep] at ih
    simp only [List.length_append, List.length_cons, List.length_nil,
      Nat.zero_add, Nat.add_sub_cancel] at ih
    simp only [groupLoop]
    rw [hstep, ih]
    simp only [List.length_cons, Nat.add_sub_cancel]
    congr 1
    · rw [List.append_assoc, List.singleton_append]
      congr 1
      exact singleton_append_map_range st.retained.length rest.length
    · rw [List.append_assoc, List.singleton_append]
      congr 1
      exact singleton_append_map_range i rest.length

lemma map_range_concat_cast (n : Nat) (hn : 1 ≤ n) :
    (List.range (n - 1)).map (fun t : Nat => (t : Int)) ++ [((n - 1 : Nat) : Int)] =
      (List.range n).map (fun t : Nat => (t : Int)) := by
  obtain ⟨m, rfl⟩ : ∃ m, n = m + 1 := ⟨n - 1, by omega⟩
  simp [List.range_succ]

lemma buildGrouping_all_distinct (cls : μ → μ → Nat) (ms : List μ)
    (hn : 1 ≤ ms.length) (h : List.Chain' (fun a b => cls a b = 0) ms) :
    buildGrouping cls ms =
      { dc := (-1) :: (List.range ms.length).map (fun t : Nat => (t : Int)),
        retained := (List.range ms.length).map (fun t : Nat => (t : Int)) } := by
  unfold buildGrouping
  rw [groupLoop_all_distinct cls ms 0 _ h]
  simp only [List.nil_append, List.length_nil, List.length_map, List.length_range,
    Nat.zero_add]
  have hcast : ((ms.length : Int) - 1) = ((ms.length - 1 : Nat) : Int) := by omega
  rw [hcast]
  congr 1
  · rw [List.singleton_append, List.cons_append, map_range_concat_cast _ hn]
  · rw [map_range_concat_cast _ hn]

lemma numGroups_all_distinct (cls : μ → μ → Nat) (ms : List μ)
    (hn : 1 ≤ ms.length) (h : List.Chain' (fun a b => cls a b = 0) ms) :
    numGroups cls ms = ms.length := by
  unfold numGroups
  rw [buildGrouping_all_distinct cls ms hn h]
  simp

lemma dc_all_distinct_getD (cls : μ → μ → Nat) (ms : List μ)
    (hn : 1 ≤ ms.length) (h : List.Chain' (fun a b => cls a b = 0) ms)
    {g : Nat} (hg : g < ms.length) :
    (buildGrouping cls ms).dc.getD g 0 = (g : Int) - 1 ∧
      (buildGrouping cls ms).dc.getD (g + 1) 0 = (g : Int) := by
  rw [buildGrouping_all_distinct cls ms hn h]
  constructor
  · cases g with
    | zero => simp
    | succ g' =>
      rw [List.getD_cons_succ, getD_map_range _ (show g' < ms.length by omega)]
      push_cast
      ring
  · rw [List.getD_cons_succ, getD_map_range _ hg]

lemma sizesOf_all_distinct (cls : μ → μ → Nat) (ms : List μ)
    (hn : 1 ≤ ms.length) (h : List.Chain' (fun a b => cls a b = 0) ms) :
    sizesOf cls ms = List.replicate ms.length 1 := by
  have hG := numGroups_all_distinct cls ms hn h
  rw [List.eq_replicate_iff]
  constructor
  · rw [sizesOf_length, hG]
  · intro b hb
    unfold sizesOf at hb
    rcases List.mem_map.mp hb with ⟨g, hgmem, rfl⟩
    have hg : g < ms.length := by
      rw [← hG]
      exact List.mem_range.mp hgmem
    obtain ⟨h1, h2⟩ := dc_all_distinct_getD cls ms hn h hg
    rw [h1, h2]
    ring

lemma pickOf_member_all_distinct (cls : μ → μ → Nat) (ms : List μ)
    (hn : 1 ≤ ms.length) (h : List.Chain' (fun a b => cls a b = 0) ms) (k : Nat) :
    (pickOf cls ms k).member = ((k % ms.length : Nat) : Int) := by
  have hG := numGroups_all_distinct cls ms hn h
  have hg : k % ms.length < ms.length := Nat.mod_lt _ (by omega)
  have hS : (sizesOf cls ms).getD (k % ms.length) 0 = 1 := by
    rw [sizesOf_all_distinct cls ms hn h]
    exact getD_replicate _ hg
  obtain ⟨hdc, -⟩ := dc_all_distinct_getD cls ms hn h hg
  rw [pickOf_member_eq, pickOf_retIdx_eq, pickOf_mpos, hG, hS, Int.emod_one, hdc]
  rw [show (((k % ms.length : Nat) : Int) - 1 + 1 + 0) = ((k % ms.length : Nat) : Int)
    from by ring]
  rw [Int.toNat_natCast]
  rw [buildGrouping_all_distinct cls ms hn h]
  exact getD_map_range _ hg

/-! ### Frame properties of the driver -/

/-- Default member used only as a `getD` fallback in proofs. -/
def mdef : Member := { id := "", assignment := [] }

lemma getD_of_lt' {α : Type} (l : List α) (d : α) {i : Nat} (h : i < l.length) :
    l.getD i d = l[i] := by
  simp [List.getD_eq_getElem?_getD, List.getElem?_eq_getElem h]

/-- `m'` is `m` with zero or more assignment entries appended. -/
def ExtendsA (m m' : Member) : Prop :=
  m.id = m'.id ∧ ∃ extra, m'.assignment = m.assignment ++ extra

lemma extendsA_refl (m : Member) : ExtendsA m m := ⟨rfl, [], by simp⟩

lemma extendsA_trans {a b c : Member} (h1 : ExtendsA a b) (h2 : ExtendsA b c) :
    ExtendsA a c := by
  obtain ⟨hid1, e1, he1⟩ := h1
  obtain ⟨hid2, e2, he2⟩ := h2
  exact ⟨hid1.trans hid2, e1 ++ e2, by rw [he2, he1, List.append_assoc]⟩

/-- Pointwise frame relation: same length, same ids, assignments only
appended. -/
def FrameRel (ms ms' : List Member) : Prop :=
  ms'.length = ms.length ∧
    ∀ i, i < ms.length → ExtendsA (ms.getD i mdef) (ms'.getD i mdef)

lemma frameRel_refl (ms : List Member) : FrameRel ms ms :=
  ⟨Eq.refl _, fun _ _ => extendsA_refl _⟩

lemma frameRel_trans {a b c : List Member} (h1 : FrameRel a b) (h2 : FrameRel b c) :
    FrameRel a c := by
  have hl1 := h1.1
  refine ⟨h2.1.trans h1.1, fun i hi => ?_⟩
  exact extendsA_trans (h1.2 i hi) (h2.2 i (by omega))

lemma FrameRel.map_id {a b : List Member} (h : FrameRel a b) :
    b.map Member.id = a.map Member.id := by
  apply List.ext_getElem
  · simp [h.1]
  · intro i hi1 hi2
    simp only [List.length_map] at hi1 hi2
    simp only [List.getElem_map]
    have hext := h.2 i hi2
    rw [getD_of_lt' _ _ hi2, getD_of_lt' _ _ hi1] at hext
    exact hext.1.symm

lemma FrameRel.mem_extends {a b : List Member} (h : FrameRel a b) {m' : Member}
    (hm : m' ∈ b) : ∃ m ∈ a, ExtendsA m m' := by
  rcases List.getElem_of_mem hm with ⟨i, hi, rfl⟩
  have hia : i < a.length := by
    have := h.1
    omega
  have hext := h.2 i hia
  rw [getD_of_lt' _ _ hia, getD_of_lt' _ _ hi] at hext
  exact ⟨a[i], List.getElem_mem hia, hext⟩

lemma appendPick_FrameRel (t : String) (ms : List Member) (pk : Pick) :
    FrameRel ms (appendPick t ms pk) := by
  unfold appendPick
  split_ifs
  · exact frameRel_refl ms
  · split
    · exact frameRel_refl ms
    · rename_i m hm
      have hlt : pk.member.toNat < ms.length := by
        by_contra hge
        push_neg at hge
        rw [List.getElem?_eq_none (by omega)] at hm
        exact Option.noConfusion hm
      refine ⟨by simp, fun i hi => ?_⟩
      by_cases hieq : pk.member.toNat = i
      · subst hieq
        rw [getD_of_lt' _ _ hi, getD_of_lt' _ _ (by simpa using hi)]
        rw [List.getElem_set_self]
        have hm' : ms[pk.member.toNat] = m := by
          rw [List.getElem?_eq_getElem hlt] at hm
          exact Option.some.inj hm
        rw [hm']
        exact ⟨rfl, [(t, pk.partition)], rfl⟩
      · rw [getD_of_lt' _ _ hi, getD_of_lt' _ _ (by simpa using hi)]
        rw [List.getElem_set_ne hieq]
        exact extendsA_refl _

lemma foldl_appendPick_FrameRel (t : String) :
    ∀ (picks : List Pick) (ms : List Member),
      FrameRel ms (picks.foldl (appendPick t) ms)
  | [], ms => frameRel_refl ms
  | pk :: rest, ms => by
    rw [List.foldl_cons]
    exact frameRel_trans (appendPick_FrameRel t ms pk)
      (foldl_appendPick_FrameRel t rest (appendPick t ms pk))

lemma sortMembers_perm (ms : List Member) : (sortMembers ms).Perm ms :=
  List.perm_insertionSort _ ms

lemma processTopic_frame (cls : String → String → Nat) (t : ATopic)
    (ms : List Member) :
    ((processTopic cls t ms).map Member.id).Perm (ms.map Member.id) ∧
      ∀ m' ∈ processTopic cls t ms, ∃ m ∈ ms, ExtendsA m m' := by
  unfold processTopic
  have hfr := foldl_appendPick_FrameRel t.topic
    (topicTrace cls (((sortMembers ms).take t.eligible.length).map Member.id)
      t.partitionCnt) (sortMembers ms)
  constructor
  · rw [FrameRel.map_id hfr]
    exact (sortMembers_perm ms).map Member.id
  · intro m' hm'
    obtain ⟨m1, hm1, hext⟩ := FrameRel.mem_extends hfr hm'
    exact ⟨m1, (sortMembers_perm ms).mem_iff.mp hm1, hext⟩

lemma foldl_processTopic_frame (cls : String → String → Nat) :
    ∀ (ts : List ATopic) (ms : List Member),
      (((ts.foldl (fun cur t => processTopic cls t cur) ms).map Member.id).Perm
          (ms.map Member.id)) ∧
        ∀ m' ∈ ts.foldl (fun cur t => processTopic cls t cur) ms,
          ∃ m ∈ ms, ExtendsA m m'
  | [], ms => ⟨List.Perm.refl _, fun m' hm' => ⟨m', hm', extendsA_refl _⟩⟩
  | t :: ts, ms => by
    simp only [List.foldl_cons]
    have h1 := processTopic_frame cls t ms
    have h2 := foldl_processTopic_frame cls ts (processTopic cls t ms)
    refine ⟨h2.1.trans h1.1, fun m' hm' => ?_⟩
    obtain ⟨m1, hm1, he1⟩ := h2.2 m' hm'
    obtain ⟨m0, hm0, he0⟩ := h1.2 m1 hm1
    exact ⟨m0, hm0, extendsA_trans he0 he1⟩

/-! ### The zero-eligible-members case -/

lemma buildGrouping_nil (cls : μ → μ → Nat) :
    buildGrouping cls ([] : List μ) = { dc := [-1, 0], retained := [-1] } := rfl

lemma numGroups_nil (cls : μ → μ → Nat) : numGroups cls ([] : List μ) = 1 := rfl

lemma sizesOf_nil (cls : μ → μ → Nat) : sizesOf cls ([] : List μ) = [1] := rfl

lemma pickOf_nil (cls : μ → μ → Nat) (k : Nat) :
    pickOf cls ([] : List μ) k =
      { partition := k, group := 0, mpos := 0, retIdx := 0, member := -1 } := by
  unfold pickOf pickAt
  rw [numGroups_nil, buildGrouping_nil, sizesOf_nil]
  simp [Nat.mod_one, Int.emod_one]

lemma topicTrace_nil_members (cls : μ → μ → Nat) (P : Int) :
    topicTrace cls ([] : List μ) P = (List.range P.toNat).map
      (fun k => { partition := k, group := 0, mpos := 0, retIdx := 0,
                  member := -1 }) := by
  rw [topicTrace_closed]
  apply List.map_congr_left
  intro k _
  exact pickOf_nil cls k

lemma foldl_appendPick_neg (t : String) :
    ∀ (picks : List Pick) (ms : List Member),
      (∀ pk ∈ picks, pk.member < 0) → picks.foldl (appendPick t) ms = ms
  | [], _, _ => rfl
  | pk :: rest, ms, h => by
    have h1 : appendPick t ms pk = ms := by
      unfold appendPick
      rw [if_pos (h pk (by simp))]
    rw [List.foldl_cons, h1]
    exact foldl_appendPick_neg t rest ms (fun p hp => h p (by simp [hp]))

lemma processTopic_empty_eligible (cls : String → String → Nat) (t : ATopic)
    (ms : List Member) (h : t.eligible = []) :
    processTopic cls t ms = sortMembers ms := by
  unfold processTopic
  rw [h]
  simp only [List.length_nil, List.take_zero, List.map_nil]
  apply foldl_appendPick_neg
  intro pk hpk
  rw [topicTrace_nil_members] at hpk
  rcases List.mem_map.mp hpk with ⟨k, -, rfl⟩
  exact (by norm_num : (-1 : Int) < 0)

/-! ## Claim theorems -/

lemma countP_eq_range {p N : Nat} (h : p < N) :
    (List.range N).countP (fun k => decide (k = p)) = 1 := by
  induction N with
  | zero => omega
  | succ N ih =>
    rw [List.range_succ, List.countP_append, countP_singleton]
    by_cases hc : p < N
    · rw [ih hc]
      simp only [decide_eq_true_eq]
      rw [if_neg (by omega)]
    · have hpN : p = N := by omega
      subst hpN
      have h0 : (List.range p).countP (fun k => decide (k = p)) = 0 := by
        rw [List.countP_eq_zero]
        intro a ha
        have := List.mem_range.mp ha
        simp only [decide_eq_true_eq]
        omega
      rw [h0]
      simp

/-- C1: for a topic with at least one grouped member and partition count
`P`, the distribution loop visits every partition index in `[0, P)` exactly
once and in increasing order (the trace's partition sequence is literally
`List.range P.toNat`), appends each partition to exactly one member, and
every chosen member index denotes an actual member of the grouped sequence;
hence across all members the assigned partitions for the topic are exactly
`{0, ..., P-1}` with no index assigned twice, and a non-positive `P` yields
zero iterations. -/
theorem C1_completeness (cls : μ → μ → Nat) (ms : List μ) (P : Int)
    (h : 1 ≤ ms.length) :
    (topicTrace cls ms P).map Pick.partition = List.range P.toNat ∧
    (∀ p, p < P.toNat →
      (topicTrace cls ms P).countP (fun pk => decide (pk.partition = p)) = 1) ∧
    (∀ pk ∈ topicTrace cls ms P, 0 ≤ pk.member ∧ pk.member < (ms.length : Int)) := by
  refine ⟨?_, ?_, ?_⟩
  · rw [topicTrace_closed, List.map_map]
    have hfun : (Pick.partition ∘ pickOf cls ms) = fun k => k := by
      funext k
      exact pickOf_partition cls ms k
    rw [hfun]
    simp
  · intro p hp
    rw [trace_countP_eq]
    have hcong : (List.range P.toNat).countP
        (fun k => decide ((pickOf cls ms k).partition = p)) =
        (List.range P.toNat).countP (fun k => decide (k = p)) := by
      apply List.countP_congr
      intro k _
      rw [pickOf_partition]
    rw [hcong]
    exact countP_eq_range hp
  · intro pk hpk
    rw [topicTrace_closed] at hpk
    rcases List.mem_map.mp hpk with ⟨k, -, rfl⟩
    exact pickOf_member_bounds cls ms k h

theorem C1_completeness_witness :
    (1 ≤ ([0] : List Nat).length) ∧
    ((topicTrace (fun _ _ => 0) ([0] : List Nat) 2).map Pick.partition =
        List.range (2 : Int).toNat ∧
      (∀ p, p < (2 : Int).toNat →
        (topicTrace (fun _ _ => 0) ([0] : List Nat) 2).countP
          (fun pk => decide (pk.partition = p)) = 1) ∧
      (∀ pk ∈ topicTrace (fun _ _ => 0) ([0] : List Nat) 2,
        0 ≤ pk.member ∧ pk.member < (([0] : List Nat).length : Int))) :=
  ⟨by decide, C1_completeness (fun _ _ => 0) [0] 2 (by decide)⟩

/-- C2: for any two groups `g1`, `g2` of a topic, the number of trace
entries landing in `g1` exceeds the number landing in `g2` by at most 1
(and symmetrically, by instantiating the theorem with the groups swapped),
because the group cursor advances once per partition modulo the group
count. -/
theorem C2_group_fairness (cls : μ → μ → Nat) (ms : List μ) (P : Int)
    (g1 g2 : Nat) (h1 : g1 < numGroups cls ms) (h2 : g2 < numGroups cls ms) :
    (((topicTrace cls ms P).countP
        (fun pk => decide (pk.group = (g1 : Int)))) : Int) -
      (((topicTrace cls ms P).countP
        (fun pk => decide (pk.group = (g2 : Int)))) : Int) ≤ 1 := by
  rw [trace_group_count cls ms P h1, trace_group_count cls ms P h2]
  split_ifs <;> push_cast <;> omega

theorem C2_group_fairness_witness :
    (0 < numGroups (fun _ _ => 0) ([0, 1] : List Nat)) ∧
    (1 < numGroups (fun _ _ => 0) ([0, 1] : List Nat)) ∧
    ((((topicTrace (fun _ _ => 0) ([0, 1] : List Nat) 3).countP
        (fun pk => decide (pk.group = ((0 : Nat) : Int)))) : Int) -
      (((topicTrace (fun _ _ => 0) ([0, 1] : List Nat) 3).countP
        (fun pk => decide (pk.group = ((1 : Nat) : Int)))) : Int) ≤ 1) :=
  ⟨by decide, by decide,
    C2_group_fairness (fun _ _ => 0) [0, 1] 3 0 1 (by decide) (by decide)⟩

/-- C3: inside any one group `g` of size `S`, the counts of trace entries
landing on any two within-group positions `j1`, `j2 < S` differ by at most 1
(symmetrically by swapping), because the group's member cursor advances
modulo `S` only when that group is selected. -/
theorem C3_within_group_fairness (cls : μ → μ → Nat) (ms : List μ) (P : Int)
    (g j1 j2 : Nat) (hg : g < numGroups cls ms)
    (hj1 : (j1 : Int) < (sizesOf cls ms).getD g 0)
    (hj2 : (j2 : Int) < (sizesOf cls ms).getD g 0) :
    (((topicTrace cls ms P).countP (fun pk => decide (pk.group = (g : Int)) &&
        decide (pk.mpos = (j1 : Int)))) : Int) -
      (((topicTrace cls ms P).countP (fun pk => decide (pk.group = (g : Int)) &&
        decide (pk.mpos = (j2 : Int)))) : Int) ≤ 1 := by
  rw [trace_group_mpos_count cls ms P hg hj1, trace_group_mpos_count cls ms P hg hj2]
  split_ifs <;> push_cast <;> omega

theorem C3_within_group_fairness_witness :
    (0 < numGroups (fun _ _ => 1) ([0, 1] : List Nat)) ∧
    (((0 : Nat) : Int) < (sizesOf (fun _ _ => 1) ([0, 1] : List Nat)).getD 0 0) ∧
    (((1 : Nat) : Int) < (sizesOf (fun _ _ => 1) ([0, 1] : List Nat)).getD 0 0) ∧
    ((((topicTrace (fun _ _ => 1) ([0, 1] : List Nat) 3).countP
        (fun pk => decide (pk.group = ((0 : Nat) : Int)) &&
          decide (pk.mpos = ((0 : Nat) : Int)))) : Int) -
      (((topicTrace (fun _ _ => 1) ([0, 1] : List Nat) 3).countP
        (fun pk => decide (pk.group = ((0 : Nat) : Int)) &&
          decide (pk.mpos = ((1 : Nat) : Int)))) : Int) ≤ 1) :=
  ⟨by decide, by decide, by decide,
    C3_within_group_fairness (fun _ _ => 1) [0, 1] 3 0 0 1 (by decide) (by decide)
      (by decide)⟩

/-- C4 (Scenario B): with members sorted as A-1, A-2, B-1, classification
(A-1, A-2) = same group (1) and (A-2, B-1) = distinct (0), and one topic
with 4 partitions: the grouper yields boundaries [-1, 1, 2] and retained
members [0, 1, 2] (groups {A-1, A-2} of size 2 and {B-1} of size 1), the
distributor sends partition 0 to member 0 (A-1), 1 to member 2 (B-1), 2 to
member 1 (A-2), 3 to member 2 (B-1), and the driver produces
A-1 = [t:0], A-2 = [t:2], B-1 = [t:1, t:3]. -/
theorem C4_scenario_b :
    buildGrouping (fun a b => if a = "A-1" ∧ b = "A-2" then 1 else 0)
        ["A-1", "A-2", "B-1"] = { dc := [-1, 1, 2], retained := [0, 1, 2] } ∧
    numGroups (fun a b => if a = "A-1" ∧ b = "A-2" then 1 else 0)
        ["A-1", "A-2", "B-1"] = 2 ∧
    sizesOf (fun a b => if a = "A-1" ∧ b = "A-2" then 1 else 0)
        ["A-1", "A-2", "B-1"] = [2, 1] ∧
    (topicTrace (fun a b => if a = "A-1" ∧ b = "A-2" then 1 else 0)
        ["A-1", "A-2", "B-1"] 4).map (fun pk => (pk.partition, pk.member)) =
      [(0, 0), (1, 2), (2, 1), (3, 2)] ∧
    (assignCb (fun a b => if a = "A-1" ∧ b = "A-2" then 1 else 0)
        [{ id := "A-1", assignment := [] }, { id := "A-2", assignment := [] },
         { id := "B-1", assignment := [] }]
        [{ topic := "t", eligible := ["A-1", "A-2", "B-1"],
           partitionCnt := 4 }] "").members =
      [{ id := "A-1", assignment := [("t", 0)] },
       { id := "A-2", assignment := [("t", 2)] },
       { id := "B-1", assignment := [("t", 1), ("t", 3)] }] :=
  ⟨by decide, by decide, by decide, by decide, by decide⟩

/-- C5: the code computes the member count from the topic's eligible list
(`rd_list_cnt`) but then indexes the globally sorted `members` array with
it, never reading the eligible list's elements.  With members A and B, a
topic whose eligible list is just B, and one partition, partition (t, 0) is
appended to A — a member outside the topic's eligible member list — while
the eligible member B receives nothing. -/
theorem C5_eligibility_failing_input :
    (assignCb (fun _ _ => 0)
        [{ id := "A", assignment := [] }, { id := "B", assignment := [] }]
        [{ topic := "t", eligible := ["B"], partitionCnt := 1 }] "").members =
      [{ id := "A", assignment := [("t", 0)] },
       { id := "B", assignment := [] }] ∧
    "A" ∉ (["B"] : List String) :=
  ⟨by decide, by decide⟩

/-- C6 counterexample: for a topic with zero eligible members (grouped
member sequence empty) and one partition, the grouper still produces one
group (not zero) and the distribution loop still executes one iteration,
computing the out-of-bounds member index -1 — contradicting the claim that
no groups are produced and the distributor is not invoked. -/
theorem C6_counterexample :
    numGroups (fun _ _ => 0) ([] : List String) = 1 ∧
    (topicTrace (fun _ _ => 0) ([] : List String) 1).length = 1 ∧
    (topicTrace (fun _ _ => 0) ([] : List String) 1).map Pick.member = [-1] :=
  ⟨rfl, by decide, by decide⟩

/-- C6 amended: if a topic marked eligible has zero eligible members, the
pass is not the no-op the spec describes: the grouper fabricates one group
of nominal size 1 (`recount_member = 1`, reading past the recorded
boundary), the distribution loop runs once per partition, and every
iteration computes retained-member index 0 holding the member index -1 —
an out-of-bounds `members[-1]` access (undefined behaviour in the C; in
this model no member is updated, so the member array is left merely
sorted), and no error is raised. -/
theorem C6_empty_eligibility_amended (cls : String → String → Nat) (t : ATopic)
    (ms : List Member) (h : t.eligible = []) :
    numGroups cls ([] : List String) = 1 ∧
    sizesOf cls ([] : List String) = [1] ∧
    (topicTrace cls ([] : List String) t.partitionCnt).length =
      t.partitionCnt.toNat ∧
    (∀ pk ∈ topicTrace cls ([] : List String) t.partitionCnt,
      pk.member = -1 ∧ pk.retIdx = 0) ∧
    processTopic cls t ms = sortMembers ms := by
  refine ⟨numGroups_nil cls, sizesOf_nil cls, ?_, ?_,
    processTopic_empty_eligible cls t ms h⟩
  · rw [topicTrace_nil_members]
    simp
  · intro pk hpk
    rw [topicTrace_nil_members] at hpk
    rcases List.mem_map.mp hpk with ⟨k, -, rfl⟩
    exact ⟨rfl, rfl⟩

theorem C6_empty_eligibility_amended_witness :
    (({ topic := "t", eligible := [], partitionCnt := 2 } : ATopic).eligible =
      ([] : List String)) ∧
    (numGroups (fun _ _ => 0) ([] : List String) = 1 ∧
      sizesOf (fun _ _ => 0) ([] : List String) = [1] ∧
      (topicTrace (fun _ _ => 0) ([] : List String)
          ({ topic := "t", eligible := [], partitionCnt := 2 } : ATopic).partitionCnt).length =
        ({ topic := "t", eligible := [], partitionCnt := 2 } : ATopic).partitionCnt.toNat ∧
      (∀ pk ∈ topicTrace (fun _ _ => 0) ([] : List String)
          ({ topic := "t", eligible := [], partitionCnt := 2 } : ATopic).partitionCnt,
        pk.member = -1 ∧ pk.retIdx = 0) ∧
      processTopic (fun _ _ => 0)
          ({ topic := "t", eligible := [], partitionCnt := 2 } : ATopic)
          [{ id := "A", assignment := [] }] =
        sortMembers [{ id := "A", assignment := [] }]) :=
  ⟨rfl, C6_empty_eligibility_amended (fun _ _ => 0)
    { topic := "t", eligible := [], partitionCnt := 2 }
    [{ id := "A", assignment := [] }] rfl⟩

/-- C7 counterexample: for a topic whose metadata is malformed (partition
count -1, i.e. no retrievable non-negative partition count), the entry
point does not report any error and does not abort: it silently assigns
nothing for the topic, returns the success code 0 and leaves the error
buffer untouched. -/
theorem C7_counterexample :
    assignCb (fun _ _ => 0) [{ id := "A", assignment := [] }]
        [{ topic := "t", eligible := ["A"], partitionCnt := -1 }] "" =
      { members := [{ id := "A", assignment := [] }], rc := 0, err := "" } := by
  decide

/-- C7 amended: the entry point contains no error path at all: on every
input it returns the success code 0 and never writes to the caller's error
buffer; a topic with a non-positive partition count is silently skipped
rather than reported (and a missing metadata struct would be a NULL
dereference in the C, not an error return). -/
theorem C7_no_error_path_amended (cls : String → String → Nat) (ms : List Member)
    (ts : List ATopic) (errstr : String) :
    (assignCb cls ms ts errstr).rc = 0 ∧
      (assignCb cls ms ts errstr).err = errstr :=
  ⟨rfl, rfl⟩

/-- C8 counterexample: the pass sorts the caller's member array in place
(`qsort` once per topic): with the members supplied in order [B, A] and one
topic (even with zero partitions), the member array order after the call is
[A, B], not the original [B, A]. -/
theorem C8_counterexample :
    ((assignCb (fun _ _ => 0)
        [{ id := "B", assignment := [] }, { id := "A", assignment := [] }]
        [{ topic := "t", eligible := ["A", "B"],
           partitionCnt := 0 }] "").members).map Member.id ≠
      ([{ id := "B", assignment := [] },
        { id := "A", assignment := [] }].map Member.id) := by
  decide

/-- C8 amended: besides appending to assignment lists the pass also sorts
the caller's member array in place by member id; apart from that
reordering, the call changes nothing else: the multiset of member ids is
preserved, and every member of the output array is one of the input members
with the same id whose assignment list has only been extended by appended
entries. -/
theorem C8_frame_amended (cls : String → String → Nat) (ms : List Member)
    (ts : List ATopic) (errstr : String) :
    (((assignCb cls ms ts errstr).members.map Member.id).Perm
        (ms.map Member.id)) ∧
      ∀ m' ∈ (assignCb cls ms ts errstr).members,
        ∃ m ∈ ms, m.id = m'.id ∧ ∃ extra, m'.assignment = m.assignment ++ extra := by
  have h := foldl_processTopic_frame cls ts ms
  exact ⟨h.1, fun m' hm' => h.2 m' hm'⟩

/-- C9: when the classification returns distinct (0) for every adjacent
pair, every group has size 1 (the size list is all ones), and the produced
assignment is exactly plain single-level round robin over the sorted member
sequence: partition p goes to the member at sorted position p mod n. -/
theorem C9_degenerate_roundrobin (cls : μ → μ → Nat) (ms : List μ) (P : Int)
    (hn : 1 ≤ ms.length) (h : List.Chain' (fun a b => cls a b = 0) ms) :
    sizesOf cls ms = List.replicate ms.length 1 ∧
    (topicTrace cls ms P).map (fun pk => (pk.partition, pk.member)) =
      plainRoundRobin ms.length P.toNat := by
  refine ⟨sizesOf_all_distinct cls ms hn h, ?_⟩
  rw [topicTrace_closed, List.map_map]
  unfold plainRoundRobin
  apply List.map_congr_left
  intro k _
  simp only [Function.comp_apply]
  rw [pickOf_partition, pickOf_member_all_distinct cls ms hn h k]

theorem C9_degenerate_roundrobin_witness :
    (1 ≤ ([0, 1] : List Nat).length) ∧
    (List.Chain' (fun a b => (fun (_ _ : Nat) => 0) a b = 0) ([0, 1] : List Nat)) ∧
    (sizesOf (fun _ _ => 0) ([0, 1] : List Nat) =
        List.replicate ([0, 1] : List Nat).length 1 ∧
      (topicTrace (fun _ _ => 0) ([0, 1] : List Nat) 4).map
          (fun pk => (pk.partition, pk.member)) =
        plainRoundRobin ([0, 1] : List Nat).length (4 : Int).toNat) :=
  ⟨by decide, by simp [List.chain'_pair],
    C9_degenerate_roundrobin (fun _ _ => 0) [0, 1] 4 (by decide)
      (by simp [List.chain'_pair])⟩

/-- C10: for a topic with at least one grouped member, the boundary array
is strictly increasing and the final member is always retained (the last
retained entry is member n-1), the group count is at least 1 and every
group size is at least 1 — so neither modulus in the distribution loop is
zero — and every computed retained-member index lies within the bounds of
the retained-member array. -/
theorem C10_safety (cls : μ → μ → Nat) (ms : List μ) (P : Int)
    (h : 1 ≤ ms.length) :
    List.Chain' (· < ·) (buildGrouping cls ms).dc ∧
    (buildGrouping cls ms).retained.getLast? = some ((ms.length : Int) - 1) ∧
    1 ≤ numGroups cls ms ∧
    (∀ s ∈ sizesOf cls ms, 1 ≤ s) ∧
    (∀ pk ∈ topicTrace cls ms P,
      0 ≤ pk.retIdx ∧
        pk.retIdx < ((buildGrouping cls ms).retained.length : Int)) := by
  refine ⟨buildGrouping_dc_chain cls ms, ?_, numGroups_pos cls ms, ?_, ?_⟩
  · unfold buildGrouping
    rw [List.getLast?_concat]
  · intro s hs
    unfold sizesOf at hs
    rcases List.mem_map.mp hs with ⟨g, hg, rfl⟩
    have hg2 : g < numGroups cls ms := List.mem_range.mp hg
    have hpos := sizesOf_pos cls ms hg2
    rw [sizesOf_getD cls ms hg2] at hpos
    exact hpos
  · intro pk hpk
    rw [topicTrace_closed] at hpk
    rcases List.mem_map.mp hpk with ⟨k, -, rfl⟩
    exact pickOf_retIdx_bounds cls ms k

theorem C10_safety_witness :
    (1 ≤ ([0, 1] : List Nat).length) ∧
    (List.Chain' (· < ·) (buildGrouping (fun _ _ => 0) ([0, 1] : List Nat)).dc ∧
      (buildGrouping (fun _ _ => 0) ([0, 1] : List Nat)).retained.getLast? =
        some ((([0, 1] : List Nat).length : Int) - 1) ∧
      1 ≤ numGroups (fun _ _ => 0) ([0, 1] : List Nat) ∧
      (∀ s ∈ sizesOf (fun _ _ => 0) ([0, 1] : List Nat), 1 ≤ s) ∧
      (∀ pk ∈ topicTrace (fun _ _ => 0) ([0, 1] : List Nat) 3,
        0 ≤ pk.retIdx ∧
          pk.retIdx <
            ((buildGrouping (fun _ _ => 0) ([0, 1] : List Nat)).retained.length :
              Int))) :=
  ⟨by decide, C10_safety (fun _ _ => 0) [0, 1] 3 (by decide)⟩

end DoubleRR
